import Mathlib

/-!
Verification of the step-instrumented AES engine specified for the
AES-Encryption-App repository.  The backend engine itself is not part of the
checked-in sources (only the React frontend is), so the cipher core, key
schedule, mode wrappers and trace recorder are modelled from the
specification; the frontend handlers are embedded from the JavaScript
sources.  Bytes are represented as natural numbers below 256, a State is a
flat 16-element list in AES input-byte order (index 4*c + r holds row r of
column c), and fallible operations return Except values.
-/

set_option maxRecDepth 100000

namespace AesApp

/-! ## Galois-field arithmetic over GF(2^8) -/

/-- Modelled from the spec: doubling in GF(2^8) under the AES reduction
polynomial x^8+x^4+x^3+x+1, by shift-and-reduce (the missing backend's
GF-arithmetic module). -/
def xtime (a : Nat) : Nat :=
  if a < 128 then (2 * a) % 256 else ((2 * a) ^^^ 0x1B) % 256

/-- Shift-and-reduce carry-less multiplication loop, parametrised by the
field-specific doubling function so GF(2^8) and GF(2^128) share it. -/
def clmulAux (xt : Nat → Nat) : Nat → Nat → Nat → Nat
  | 0, _, _ => 0
  | n + 1, a, b => (if b % 2 = 1 then a else 0) ^^^ clmulAux xt n (xt a) (b / 2)

/-- Modelled from the spec: multiplication in GF(2^8) via shift-and-reduce. -/
def gmul (a b : Nat) : Nat := clmulAux xtime 8 a b

/-- Left rotation of a byte by n positions. -/
def rotl8 (b n : Nat) : Nat := ((b <<< n) ||| (b >>> (8 - n))) % 256

/-- Modelled from the spec: the AES affine transform applied after the
multiplicative inverse to produce an S-box entry. -/
def affineFwd (b : Nat) : Nat :=
  b ^^^ rotl8 b 1 ^^^ rotl8 b 2 ^^^ rotl8 b 3 ^^^ rotl8 b 4 ^^^ 0x63

/-- Inverse of the AES affine transform. -/
def affineInv (s : Nat) : Nat := rotl8 s 1 ^^^ rotl8 s 3 ^^^ rotl8 s 6 ^^^ 0x05

/-- The 256-entry S-box table, compiled in as a packed constant
(byte i sits at bit offset 8*i); certified below to be the affine image
of the GF(2^8) multiplicative inverse. -/
def sboxPack : Nat :=
  2869618975290639062594974519597816386035077209210385677284518162336985023502962151465775969507961862820568736543004676439868535775640188584098917533413284844376797297285941524888791401501466624530423689326528054213168201056672989590893583853414110162539122864583953358348775951166211353578440977400428507475679327181038682772945817200201960445064847785221508011893952350688324234443749897213621340677040612747745615276448919507935121141307752692835344166708617454322778699219895865633266409040561742768581056182730443599545881830075941537620590442514083341749674612746994879540562701631131184186066652929592955206755

/-- The 256-entry inverse S-box table, packed like sboxPack. -/
def invSboxPack : Nat :=
  15785769749828884342349381641981096363179738000380205650940338083111619982568718420166261191398703005748170232611805704157196303061330872280026969925224128193193768962594508714770967646139604422718174787315048227180018877623049221087186576642191304514338137614235628241783007805847129270530950856841486400764657112140097236091222567730363620332611309375046737430203438830593833719428588466121688739068564421474273450162064709239629809347626728710072303178617319436726577534667237755444692000788692193415136619289353224918429728194544458916874716857284226411602766869706570927007876872095880586785662942963508062062930

/-- S-box lookup. -/
def sbox (x : Nat) : Nat := (sboxPack >>> (8 * x)) % 256

/-- Inverse S-box lookup. -/
def invSbox (x : Nat) : Nat := (invSboxPack >>> (8 * x)) % 256

/-- The affine transform and its inverse cancel on every byte. -/
theorem affineFwd_affineInv : ∀ s < 256, affineFwd (affineInv s) = s := by decide

/-- Every nonzero S-box entry is the affine image of the multiplicative
inverse of its index: stripping the affine transform from the table entry
yields a GF(2^8) inverse of the index. -/
theorem sbox_mul_inverse : ∀ x < 256, x ≠ 0 → gmul x (affineInv (sbox x)) = 1 := by
  decide

/-- The S-box entry of 0 is the affine image of 0 (0 has no inverse and is
mapped to itself before the affine step). -/
theorem sbox_zero : sbox 0 = affineFwd 0 := by decide

/-- The inverse table inverts the S-box on every byte. -/
theorem invSbox_sbox : ∀ x < 256, invSbox (sbox x) = x := by decide

/-- S-box values are bytes. -/
theorem sbox_lt (x : Nat) : sbox x < 256 := Nat.mod_lt _ (by norm_num)

/-- Inverse S-box values are bytes. -/
theorem invSbox_lt (x : Nat) : invSbox x < 256 := Nat.mod_lt _ (by norm_num)

/-! ## Round-transform primitives over a flat 16-byte State -/

/-- Modelled from the spec: SubBytes, byte-wise S-box substitution. -/
def subBytes (s : List Nat) : List Nat := s.map sbox

/-- Modelled from the spec: InvSubBytes, byte-wise inverse substitution. -/
def invSubBytes (s : List Nat) : List Nat := s.map invSbox

/-- Modelled from the spec: ShiftRows; with the State stored column-major
(index 4*c + r), row r is cyclically shifted left by r positions. -/
def shiftRows (s : List Nat) : List Nat :=
  [s.getD 0 0, s.getD 5 0, s.getD 10 0, s.getD 15 0,
   s.getD 4 0, s.getD 9 0, s.getD 14 0, s.getD 3 0,
   s.getD 8 0, s.getD 13 0, s.getD 2 0, s.getD 7 0,
   s.getD 12 0, s.getD 1 0, s.getD 6 0, s.getD 11 0]

/-- Modelled from the spec: InvShiftRows; row r is cyclically shifted right
by r positions. -/
def invShiftRows (s : List Nat) : List Nat :=
  [s.getD 0 0, s.getD 13 0, s.getD 10 0, s.getD 7 0,
   s.getD 4 0, s.getD 1 0, s.getD 14 0, s.getD 11 0,
   s.getD 8 0, s.getD 5 0, s.getD 2 0, s.getD 15 0,
   s.getD 12 0, s.getD 9 0, s.getD 6 0, s.getD 3 0]

/-- Modelled from the spec: MixColumns; every column is multiplied by the
fixed AES matrix over GF(2^8). -/
def mixColumns (s : List Nat) : List Nat :=
  [gmul 2 (s.getD 0 0) ^^^ gmul 3 (s.getD 1 0) ^^^ s.getD 2 0 ^^^ s.getD 3 0,
   s.getD 0 0 ^^^ gmul 2 (s.getD 1 0) ^^^ gmul 3 (s.getD 2 0) ^^^ s.getD 3 0,
   s.getD 0 0 ^^^ s.getD 1 0 ^^^ gmul 2 (s.getD 2 0) ^^^ gmul 3 (s.getD 3 0),
   gmul 3 (s.getD 0 0) ^^^ s.getD 1 0 ^^^ s.getD 2 0 ^^^ gmul 2 (s.getD 3 0),
   gmul 2 (s.getD 4 0) ^^^ gmul 3 (s.getD 5 0) ^^^ s.getD 6 0 ^^^ s.getD 7 0,
   s.getD 4 0 ^^^ gmul 2 (s.getD 5 0) ^^^ gmul 3 (s.getD 6 0) ^^^ s.getD 7 0,
   s.getD 4 0 ^^^ s.getD 5 0 ^^^ gmul 2 (s.getD 6 0) ^^^ gmul 3 (s.getD 7 0),
   gmul 3 (s.getD 4 0) ^^^ s.getD 5 0 ^^^ s.getD 6 0 ^^^ gmul 2 (s.getD 7 0),
   gmul 2 (s.getD 8 0) ^^^ gmul 3 (s.getD 9 0) ^^^ s.getD 10 0 ^^^ s.getD 11 0,
   s.getD 8 0 ^^^ gmul 2 (s.getD 9 0) ^^^ gmul 3 (s.getD 10 0) ^^^ s.getD 11 0,
   s.getD 8 0 ^^^ s.getD 9 0 ^^^ gmul 2 (s.getD 10 0) ^^^ gmul 3 (s.getD 11 0),
   gmul 3 (s.getD 8 0) ^^^ s.getD 9 0 ^^^ s.getD 10 0 ^^^ gmul 2 (s.getD 11 0),
   gmul 2 (s.getD 12 0) ^^^ gmul 3 (s.getD 13 0) ^^^ s.getD 14 0 ^^^ s.getD 15 0,
   s.getD 12 0 ^^^ gmul 2 (s.getD 13 0) ^^^ gmul 3 (s.getD 14 0) ^^^ s.getD 15 0,
   s.getD 12 0 ^^^ s.getD 13 0 ^^^ gmul 2 (s.getD 14 0) ^^^ gmul 3 (s.getD 15 0),
   gmul 3 (s.getD 12 0) ^^^ s.getD 13 0 ^^^ s.getD 14 0 ^^^ gmul 2 (s.getD 15 0)]

/-- Modelled from the spec: InvMixColumns; every column is multiplied by
the inverse AES matrix over GF(2^8). -/
def invMixColumns (s : List Nat) : List Nat :=
  [gmul 14 (s.getD 0 0) ^^^ gmul 11 (s.getD 1 0) ^^^ gmul 13 (s.getD 2 0) ^^^ gmul 9 (s.getD 3 0),
   gmul 9 (s.getD 0 0) ^^^ gmul 14 (s.getD 1 0) ^^^ gmul 11 (s.getD 2 0) ^^^ gmul 13 (s.getD 3 0),
   gmul 13 (s.getD 0 0) ^^^ gmul 9 (s.getD 1 0) ^^^ gmul 14 (s.getD 2 0) ^^^ gmul 11 (s.getD 3 0),
   gmul 11 (s.getD 0 0) ^^^ gmul 13 (s.getD 1 0) ^^^ gmul 9 (s.getD 2 0) ^^^ gmul 14 (s.getD 3 0),
   gmul 14 (s.getD 4 0) ^^^ gmul 11 (s.getD 5 0) ^^^ gmul 13 (s.getD 6 0) ^^^ gmul 9 (s.getD 7 0),
   gmul 9 (s.getD 4 0) ^^^ gmul 14 (s.getD 5 0) ^^^ gmul 11 (s.getD 6 0) ^^^ gmul 13 (s.getD 7 0),
   gmul 13 (s.getD 4 0) ^^^ gmul 9 (s.getD 5 0) ^^^ gmul 14 (s.getD 6 0) ^^^ gmul 11 (s.getD 7 0),
   gmul 11 (s.getD 4 0) ^^^ gmul 13 (s.getD 5 0) ^^^ gmul 9 (s.getD 6 0) ^^^ gmul 14 (s.getD 7 0),
   gmul 14 (s.getD 8 0) ^^^ gmul 11 (s.getD 9 0) ^^^ gmul 13 (s.getD 10 0) ^^^ gmul 9 (s.getD 11 0),
   gmul 9 (s.getD 8 0) ^^^ gmul 14 (s.getD 9 0) ^^^ gmul 11 (s.getD 10 0) ^^^ gmul 13 (s.getD 11 0),
   gmul 13 (s.getD 8 0) ^^^ gmul 9 (s.getD 9 0) ^^^ gmul 14 (s.getD 10 0) ^^^ gmul 11 (s.getD 11 0),
   gmul 11 (s.getD 8 0) ^^^ gmul 13 (s.getD 9 0) ^^^ gmul 9 (s.getD 10 0) ^^^ gmul 14 (s.getD 11 0),
   gmul 14 (s.getD 12 0) ^^^ gmul 11 (s.getD 13 0) ^^^ gmul 13 (s.getD 14 0) ^^^ gmul 9 (s.getD 15 0),
   gmul 9 (s.getD 12 0) ^^^ gmul 14 (s.getD 13 0) ^^^ gmul 11 (s.getD 14 0) ^^^ gmul 13 (s.getD 15 0),
   gmul 13 (s.getD 12 0) ^^^ gmul 9 (s.getD 13 0) ^^^ gmul 14 (s.getD 14 0) ^^^ gmul 11 (s.getD 15 0),
   gmul 11 (s.getD 12 0) ^^^ gmul 13 (s.getD 13 0) ^^^ gmul 9 (s.getD 14 0) ^^^ gmul 14 (s.getD 15 0)]

/-- Byte-wise XOR of two byte lists, truncated to the shorter one. -/
def xorBytes (a b : List Nat) : List Nat :=
  List.zipWith (fun x y => x ^^^ y) a b

/-- Modelled from the spec: AddRoundKey, byte-wise XOR with a round key. -/
def addRoundKey (s k : List Nat) : List Nat := xorBytes s k


/-! ## Byte-level algebraic lemmas -/

/-- XOR of two bytes is a byte. -/
theorem byteXor_lt {a b : Nat} (ha : a < 256) (hb : b < 256) : a ^^^ b < 256 := by
  have h : a ^^^ b < 2 ^ 8 :=
    Nat.xor_lt_two_pow (by norm_num at ha ⊢; exact ha) (by norm_num at hb ⊢; exact hb)
  norm_num at h
  exact h

/-- Doubling in GF(2^8) stays below 256. -/
theorem xtime_lt (a : Nat) : xtime a < 256 := by
  unfold xtime
  split <;> exact Nat.mod_lt _ (by norm_num)

/-- The carry-less multiplication loop stays below 2^k when its running
operand does. -/
theorem clmulAux_lt (xt : Nat → Nat) (k : Nat) (hxt : ∀ x, xt x < 2 ^ k) :
    ∀ n a b, a < 2 ^ k → clmulAux xt n a b < 2 ^ k := by
  intro n
  induction n with
  | zero =>
    intro a b _
    simp only [clmulAux]
    exact Nat.two_pow_pos k
  | succ n ih =>
    intro a b ha
    unfold clmulAux
    apply Nat.xor_lt_two_pow
    · split
      · exact ha
      · exact Nat.pos_pow_of_pos k (by norm_num)
    · exact ih (xt a) (b / 2) (hxt a)

/-- GF(2^8) products with a byte on the left are bytes. -/
theorem gmul_lt (a b : Nat) (ha : a < 256) : gmul a b < 256 := by
  have h := clmulAux_lt xtime 8 (fun x => by norm_num [xtime_lt x]) 8 a b (by norm_num at ha ⊢; exact ha)
  norm_num at h
  exact h

/-- Left-commutativity of XOR, for AC normalisation. -/
theorem xorLeftComm (a b c : Nat) : a ^^^ (b ^^^ c) = b ^^^ (a ^^^ c) := by
  rw [← Nat.xor_assoc, Nat.xor_comm a b, Nat.xor_assoc]

/-- The carry-less multiplication loop distributes over XOR in its second
argument. -/
theorem clmulAux_xor (xt : Nat → Nat) :
    ∀ n a b c, clmulAux xt n a (b ^^^ c) = clmulAux xt n a b ^^^ clmulAux xt n a c := by
  intro n
  induction n with
  | zero => intros; simp [clmulAux]
  | succ n ih =>
    intro a b c
    simp only [clmulAux]
    rw [Nat.xor_div_two, ih]
    have hm : (b ^^^ c) % 2 = b % 2 ^^^ c % 2 := by
      rw [← Nat.and_one_is_mod, ← Nat.and_one_is_mod, ← Nat.and_one_is_mod,
        Nat.and_xor_distrib_right]
    rcases Nat.mod_two_eq_zero_or_one b with hb | hb <;>
      rcases Nat.mod_two_eq_zero_or_one c with hc | hc <;>
        simp [hm, hb, hc, Nat.xor_assoc, Nat.xor_comm, xorLeftComm, Nat.xor_cancel_left]

/-- GF(2^8) multiplication distributes over XOR on the right. -/
theorem gmul_xor (a b c : Nat) : gmul a (b ^^^ c) = gmul a b ^^^ gmul a c :=
  clmulAux_xor xtime 8 a b c

/-- Diagonal coefficient collapse of the inverse MixColumns matrix times
the MixColumns matrix: the combination equals the identity on bytes. -/
theorem mixCollapse0 :
    ∀ x < 256, gmul 14 (gmul 2 x) ^^^ gmul 11 x ^^^ gmul 13 x ^^^ gmul 9 (gmul 3 x) = x := by
  decide

/-- Off-diagonal (shift 1) coefficient collapse: the combination vanishes. -/
theorem mixCollapse1 :
    ∀ x < 256, gmul 14 (gmul 3 x) ^^^ gmul 11 (gmul 2 x) ^^^ gmul 13 x ^^^ gmul 9 x = 0 := by
  decide

/-- Off-diagonal (shift 2) coefficient collapse: the combination vanishes. -/
theorem mixCollapse2 :
    ∀ x < 256, gmul 14 x ^^^ gmul 11 (gmul 3 x) ^^^ gmul 13 (gmul 2 x) ^^^ gmul 9 x = 0 := by
  decide

/-- Off-diagonal (shift 3) coefficient collapse: the combination vanishes. -/
theorem mixCollapse3 :
    ∀ x < 256, gmul 14 x ^^^ gmul 11 x ^^^ gmul 13 (gmul 3 x) ^^^ gmul 9 (gmul 2 x) = 0 := by
  decide

/-! ## State shape lemmas -/

/-- Every 16-element list of bytes is literally its sixteen entries. -/
theorem exists_list16 (s : List Nat) (h : s.length = 16) :
    ∃ a0 a1 a2 a3 a4 a5 a6 a7 a8 a9 a10 a11 a12 a13 a14 a15 : Nat,
      s = [a0, a1, a2, a3, a4, a5, a6, a7, a8, a9, a10, a11, a12, a13, a14, a15] := by
  rcases s with _ | ⟨a0, s⟩
  · simp at h
  rcases s with _ | ⟨a1, s⟩
  · simp at h
  rcases s with _ | ⟨a2, s⟩
  · simp at h
  rcases s with _ | ⟨a3, s⟩
  · simp at h
  rcases s with _ | ⟨a4, s⟩
  · simp at h
  rcases s with _ | ⟨a5, s⟩
  · simp at h
  rcases s with _ | ⟨a6, s⟩
  · simp at h
  rcases s with _ | ⟨a7, s⟩
  · simp at h
  rcases s with _ | ⟨a8, s⟩
  · simp at h
  rcases s with _ | ⟨a9, s⟩
  · simp at h
  rcases s with _ | ⟨a10, s⟩
  · simp at h
  rcases s with _ | ⟨a11, s⟩
  · simp at h
  rcases s with _ | ⟨a12, s⟩
  · simp at h
  rcases s with _ | ⟨a13, s⟩
  · simp at h
  rcases s with _ | ⟨a14, s⟩
  · simp at h
  rcases s with _ | ⟨a15, s⟩
  · simp at h
  rcases s with _ | ⟨a16, s⟩
  · exact ⟨a0, a1, a2, a3, a4, a5, a6, a7, a8, a9, a10, a11, a12, a13, a14, a15, rfl⟩
  · simp at h

/-- Entries of a byte list read through getD are bytes. -/
theorem getD_lt_256 (s : List Nat) (hb : ∀ x ∈ s, x < 256) (i : Nat) :
    s.getD i 0 < 256 := by
  by_cases hi : i < s.length
  · rw [List.getD_eq_getElem s 0 hi]
    exact hb _ (List.getElem_mem hi)
  · rw [List.getD_eq_default s 0 (Nat.le_of_not_lt hi)]
    norm_num

/-- ShiftRows keeps the 16-byte State size. -/
theorem shiftRows_length (s : List Nat) : (shiftRows s).length = 16 := rfl

/-- InvShiftRows keeps the 16-byte State size. -/
theorem invShiftRows_length (s : List Nat) : (invShiftRows s).length = 16 := rfl

/-- MixColumns keeps the 16-byte State size. -/
theorem mixColumns_length (s : List Nat) : (mixColumns s).length = 16 := rfl

/-- InvMixColumns keeps the 16-byte State size. -/
theorem invMixColumns_length (s : List Nat) : (invMixColumns s).length = 16 := rfl

/-- InvShiftRows undoes ShiftRows on every 16-byte State. -/
theorem invShiftRows_shiftRows (s : List Nat) (h : s.length = 16) :
    invShiftRows (shiftRows s) = s := by
  obtain ⟨a0, a1, a2, a3, a4, a5, a6, a7, a8, a9, a10, a11, a12, a13, a14, a15, rfl⟩ := exists_list16 s h
  rfl

/-- ShiftRows undoes InvShiftRows on every 16-byte State. -/
theorem shiftRows_invShiftRows (s : List Nat) (h : s.length = 16) :
    shiftRows (invShiftRows s) = s := by
  obtain ⟨a0, a1, a2, a3, a4, a5, a6, a7, a8, a9, a10, a11, a12, a13, a14, a15, rfl⟩ := exists_list16 s h
  rfl

/-- InvSubBytes undoes SubBytes on byte lists. -/
theorem invSubBytes_subBytes (s : List Nat) (hb : ∀ x ∈ s, x < 256) :
    invSubBytes (subBytes s) = s := by
  induction s with
  | nil => rfl
  | cons a s ih =>
    simp only [subBytes, invSubBytes, List.map_cons, List.map_map] at ih ⊢
    rw [invSbox_sbox a (hb a (by simp))]
    have := ih fun x hx => hb x (by simp [hx])
    simp only [List.map_map] at this
    rw [List.cons.injEq]
    exact ⟨rfl, this⟩


/-! ## MixColumns inversion -/

/-- Row 0 of the inverse MixColumns matrix applied to a mixed column
recovers byte 0 of the original column. -/
theorem invMixRow0 (a b c d : Nat) (ha : a < 256) (hb : b < 256)
    (hc : c < 256) (hd : d < 256) :
    gmul 14 (gmul 2 a ^^^ gmul 3 b ^^^ c ^^^ d) ^^^
      gmul 11 (a ^^^ gmul 2 b ^^^ gmul 3 c ^^^ d) ^^^
      gmul 13 (a ^^^ b ^^^ gmul 2 c ^^^ gmul 3 d) ^^^
      gmul 9 (gmul 3 a ^^^ b ^^^ c ^^^ gmul 2 d) = a := by
  have key :
      gmul 14 (gmul 2 a ^^^ gmul 3 b ^^^ c ^^^ d) ^^^
      gmul 11 (a ^^^ gmul 2 b ^^^ gmul 3 c ^^^ d) ^^^
      gmul 13 (a ^^^ b ^^^ gmul 2 c ^^^ gmul 3 d) ^^^
      gmul 9 (gmul 3 a ^^^ b ^^^ c ^^^ gmul 2 d) =
      (gmul 14 (gmul 2 a) ^^^ gmul 11 a ^^^ gmul 13 a ^^^ gmul 9 (gmul 3 a)) ^^^
        ((gmul 14 (gmul 3 b) ^^^ gmul 11 (gmul 2 b) ^^^ gmul 13 b ^^^ gmul 9 b) ^^^
          ((gmul 14 c ^^^ gmul 11 (gmul 3 c) ^^^ gmul 13 (gmul 2 c) ^^^ gmul 9 c) ^^^
            (gmul 14 d ^^^ gmul 11 d ^^^ gmul 13 (gmul 3 d) ^^^ gmul 9 (gmul 2 d)))) := by
    simp only [gmul_xor, Nat.xor_assoc, Nat.xor_comm, xorLeftComm]
  rw [key, mixCollapse0 a ha, mixCollapse1 b hb, mixCollapse2 c hc, mixCollapse3 d hd]
  simp

/-- Row 1 of the inverse MixColumns matrix applied to a mixed column
recovers byte 1 of the original column. -/
theorem invMixRow1 (a b c d : Nat) (ha : a < 256) (hb : b < 256)
    (hc : c < 256) (hd : d < 256) :
    gmul 9 (gmul 2 a ^^^ gmul 3 b ^^^ c ^^^ d) ^^^
      gmul 14 (a ^^^ gmul 2 b ^^^ gmul 3 c ^^^ d) ^^^
      gmul 11 (a ^^^ b ^^^ gmul 2 c ^^^ gmul 3 d) ^^^
      gmul 13 (gmul 3 a ^^^ b ^^^ c ^^^ gmul 2 d) = b := by
  have key :
      gmul 9 (gmul 2 a ^^^ gmul 3 b ^^^ c ^^^ d) ^^^
      gmul 14 (a ^^^ gmul 2 b ^^^ gmul 3 c ^^^ d) ^^^
      gmul 11 (a ^^^ b ^^^ gmul 2 c ^^^ gmul 3 d) ^^^
      gmul 13 (gmul 3 a ^^^ b ^^^ c ^^^ gmul 2 d) =
      (gmul 14 a ^^^ gmul 11 a ^^^ gmul 13 (gmul 3 a) ^^^ gmul 9 (gmul 2 a)) ^^^
        ((gmul 14 (gmul 2 b) ^^^ gmul 11 b ^^^ gmul 13 b ^^^ gmul 9 (gmul 3 b)) ^^^
          ((gmul 14 (gmul 3 c) ^^^ gmul 11 (gmul 2 c) ^^^ gmul 13 c ^^^ gmul 9 c) ^^^
            (gmul 14 d ^^^ gmul 11 (gmul 3 d) ^^^ gmul 13 (gmul 2 d) ^^^ gmul 9 d))) := by
    simp only [gmul_xor, Nat.xor_assoc, Nat.xor_comm, xorLeftComm]
  rw [key, mixCollapse3 a ha, mixCollapse0 b hb, mixCollapse1 c hc, mixCollapse2 d hd]
  simp

/-- Row 2 of the inverse MixColumns matrix applied to a mixed column
recovers byte 2 of the original column. -/
theorem invMixRow2 (a b c d : Nat) (ha : a < 256) (hb : b < 256)
    (hc : c < 256) (hd : d < 256) :
    gmul 13 (gmul 2 a ^^^ gmul 3 b ^^^ c ^^^ d) ^^^
      gmul 9 (a ^^^ gmul 2 b ^^^ gmul 3 c ^^^ d) ^^^
      gmul 14 (a ^^^ b ^^^ gmul 2 c ^^^ gmul 3 d) ^^^
      gmul 11 (gmul 3 a ^^^ b ^^^ c ^^^ gmul 2 d) = c := by
  have key :
      gmul 13 (gmul 2 a ^^^ gmul 3 b ^^^ c ^^^ d) ^^^
      gmul 9 (a ^^^ gmul 2 b ^^^ gmul 3 c ^^^ d) ^^^
      gmul 14 (a ^^^ b ^^^ gmul 2 c ^^^ gmul 3 d) ^^^
      gmul 11 (gmul 3 a ^^^ b ^^^ c ^^^ gmul 2 d) =
      (gmul 14 a ^^^ gmul 11 (gmul 3 a) ^^^ gmul 13 (gmul 2 a) ^^^ gmul 9 a) ^^^
        ((gmul 14 b ^^^ gmul 11 b ^^^ gmul 13 (gmul 3 b) ^^^ gmul 9 (gmul 2 b)) ^^^
          ((gmul 14 (gmul 2 c) ^^^ gmul 11 c ^^^ gmul 13 c ^^^ gmul 9 (gmul 3 c)) ^^^
            (gmul 14 (gmul 3 d) ^^^ gmul 11 (gmul 2 d) ^^^ gmul 13 d ^^^ gmul 9 d))) := by
    simp only [gmul_xor, Nat.xor_assoc, Nat.xor_comm, xorLeftComm]
  rw [key, mixCollapse2 a ha, mixCollapse3 b hb, mixCollapse0 c hc, mixCollapse1 d hd]
  simp

/-- Row 3 of the inverse MixColumns matrix applied to a mixed column
recovers byte 3 of the original column. -/
theorem invMixRow3 (a b c d : Nat) (ha : a < 256) (hb : b < 256)
    (hc : c < 256) (hd : d < 256) :
    gmul 11 (gmul 2 a ^^^ gmul 3 b ^^^ c ^^^ d) ^^^
      gmul 13 (a ^^^ gmul 2 b ^^^ gmul 3 c ^^^ d) ^^^
      gmul 9 (a ^^^ b ^^^ gmul 2 c ^^^ gmul 3 d) ^^^
      gmul 14 (gmul 3 a ^^^ b ^^^ c ^^^ gmul 2 d) = d := by
  have key :
      gmul 11 (gmul 2 a ^^^ gmul 3 b ^^^ c ^^^ d) ^^^
      gmul 13 (a ^^^ gmul 2 b ^^^ gmul 3 c ^^^ d) ^^^
      gmul 9 (a ^^^ b ^^^ gmul 2 c ^^^ gmul 3 d) ^^^
      gmul 14 (gmul 3 a ^^^ b ^^^ c ^^^ gmul 2 d) =
      (gmul 14 (gmul 3 a) ^^^ gmul 11 (gmul 2 a) ^^^ gmul 13 a ^^^ gmul 9 a) ^^^
        ((gmul 14 b ^^^ gmul 11 (gmul 3 b) ^^^ gmul 13 (gmul 2 b) ^^^ gmul 9 b) ^^^
          ((gmul 14 c ^^^ gmul 11 c ^^^ gmul 13 (gmul 3 c) ^^^ gmul 9 (gmul 2 c)) ^^^
            (gmul 14 (gmul 2 d) ^^^ gmul 11 d ^^^ gmul 13 d ^^^ gmul 9 (gmul 3 d)))) := by
    simp only [gmul_xor, Nat.xor_assoc, Nat.xor_comm, xorLeftComm]
  rw [key, mixCollapse1 a ha, mixCollapse2 b hb, mixCollapse3 c hc, mixCollapse0 d hd]
  simp

/-- InvMixColumns undoes MixColumns on every 16-byte State. -/
theorem invMixColumns_mixColumns (s : List Nat) (h : s.length = 16)
    (hb : ∀ x ∈ s, x < 256) : invMixColumns (mixColumns s) = s := by
  obtain ⟨a0, a1, a2, a3, a4, a5, a6, a7, a8, a9, a10, a11, a12, a13, a14, a15, rfl⟩ := exists_list16 s h
  have h0 : a0 < 256 := hb a0 (by simp)
  have h1 : a1 < 256 := hb a1 (by simp)
  have h2 : a2 < 256 := hb a2 (by simp)
  have h3 : a3 < 256 := hb a3 (by simp)
  have h4 : a4 < 256 := hb a4 (by simp)
  have h5 : a5 < 256 := hb a5 (by simp)
  have h6 : a6 < 256 := hb a6 (by simp)
  have h7 : a7 < 256 := hb a7 (by simp)
  have h8 : a8 < 256 := hb a8 (by simp)
  have h9 : a9 < 256 := hb a9 (by simp)
  have h10 : a10 < 256 := hb a10 (by simp)
  have h11 : a11 < 256 := hb a11 (by simp)
  have h12 : a12 < 256 := hb a12 (by simp)
  have h13 : a13 < 256 := hb a13 (by simp)
  have h14 : a14 < 256 := hb a14 (by simp)
  have h15 : a15 < 256 := hb a15 (by simp)
  simp only [mixColumns, invMixColumns, List.getD_cons_zero, List.getD_cons_succ,
    List.cons.injEq, and_true]
  exact ⟨invMixRow0 a0 a1 a2 a3 h0 h1 h2 h3,
    invMixRow1 a0 a1 a2 a3 h0 h1 h2 h3,
    invMixRow2 a0 a1 a2 a3 h0 h1 h2 h3,
    invMixRow3 a0 a1 a2 a3 h0 h1 h2 h3,
    invMixRow0 a4 a5 a6 a7 h4 h5 h6 h7,
    invMixRow1 a4 a5 a6 a7 h4 h5 h6 h7,
    invMixRow2 a4 a5 a6 a7 h4 h5 h6 h7,
    invMixRow3 a4 a5 a6 a7 h4 h5 h6 h7,
    invMixRow0 a8 a9 a10 a11 h8 h9 h10 h11,
    invMixRow1 a8 a9 a10 a11 h8 h9 h10 h11,
    invMixRow2 a8 a9 a10 a11 h8 h9 h10 h11,
    invMixRow3 a8 a9 a10 a11 h8 h9 h10 h11,
    invMixRow0 a12 a13 a14 a15 h12 h13 h14 h15,
    invMixRow1 a12 a13 a14 a15 h12 h13 h14 h15,
    invMixRow2 a12 a13 a14 a15 h12 h13 h14 h15,
    invMixRow3 a12 a13 a14 a15 h12 h13 h14 h15⟩

/-! ## Byte bounds of the primitives -/

/-- SubBytes keeps the State size. -/
theorem subBytes_length (s : List Nat) : (subBytes s).length = s.length :=
  List.length_map s sbox

/-- InvSubBytes keeps the State size. -/
theorem invSubBytes_length (s : List Nat) : (invSubBytes s).length = s.length :=
  List.length_map s invSbox

/-- SubBytes outputs bytes. -/
theorem subBytes_lt (s : List Nat) : ∀ x ∈ subBytes s, x < 256 := by
  intro x hx
  simp only [subBytes, List.mem_map] at hx
  obtain ⟨y, _, rfl⟩ := hx
  exact sbox_lt y

/-- InvSubBytes outputs bytes. -/
theorem invSubBytes_lt (s : List Nat) : ∀ x ∈ invSubBytes s, x < 256 := by
  intro x hx
  simp only [invSubBytes, List.mem_map] at hx
  obtain ⟨y, _, rfl⟩ := hx
  exact invSbox_lt y

/-- ShiftRows outputs bytes when fed bytes. -/
theorem shiftRows_lt (s : List Nat) (hb : ∀ x ∈ s, x < 256) :
    ∀ x ∈ shiftRows s, x < 256 := by
  intro x hx
  simp only [shiftRows, List.mem_cons, List.not_mem_nil, or_false] at hx
  rcases hx with rfl | rfl | rfl | rfl | rfl | rfl | rfl | rfl | rfl | rfl | rfl | rfl | rfl | rfl | rfl | rfl <;>
    exact getD_lt_256 s hb _

/-- InvShiftRows outputs bytes when fed bytes. -/
theorem invShiftRows_lt (s : List Nat) (hb : ∀ x ∈ s, x < 256) :
    ∀ x ∈ invShiftRows s, x < 256 := by
  intro x hx
  simp only [invShiftRows, List.mem_cons, List.not_mem_nil, or_false] at hx
  rcases hx with rfl | rfl | rfl | rfl | rfl | rfl | rfl | rfl | rfl | rfl | rfl | rfl | rfl | rfl | rfl | rfl <;>
    exact getD_lt_256 s hb _

/-- MixColumns outputs bytes when fed bytes. -/
theorem mixColumns_lt (s : List Nat) (hb : ∀ x ∈ s, x < 256) :
    ∀ x ∈ mixColumns s, x < 256 := by
  intro x hx
  simp only [mixColumns, List.mem_cons, List.not_mem_nil, or_false] at hx
  rcases hx with rfl | rfl | rfl | rfl | rfl | rfl | rfl | rfl | rfl | rfl | rfl | rfl | rfl | rfl | rfl | rfl <;>
    exact byteXor_lt (byteXor_lt (byteXor_lt
      (by first | exact getD_lt_256 s hb _ | exact gmul_lt _ _ (by norm_num))
      (by first | exact getD_lt_256 s hb _ | exact gmul_lt _ _ (by norm_num)))
      (by first | exact getD_lt_256 s hb _ | exact gmul_lt _ _ (by norm_num)))
      (by first | exact getD_lt_256 s hb _ | exact gmul_lt _ _ (by norm_num))

/-- InvMixColumns outputs bytes. -/
theorem invMixColumns_lt (s : List Nat) :
    ∀ x ∈ invMixColumns s, x < 256 := by
  intro x hx
  simp only [invMixColumns, List.mem_cons, List.not_mem_nil, or_false] at hx
  rcases hx with rfl | rfl | rfl | rfl | rfl | rfl | rfl | rfl | rfl | rfl | rfl | rfl | rfl | rfl | rfl | rfl <;>
    exact byteXor_lt (byteXor_lt (byteXor_lt
      (gmul_lt _ _ (by norm_num)) (gmul_lt _ _ (by norm_num)))
      (gmul_lt _ _ (by norm_num))) (gmul_lt _ _ (by norm_num))

/-- AddRoundKey yields a State as long as the shorter operand. -/
theorem addRoundKey_length (s k : List Nat) :
    (addRoundKey s k).length = min s.length k.length :=
  List.length_zipWith _ s k

/-- AddRoundKey outputs bytes when both operands hold bytes. -/
theorem addRoundKey_lt :
    ∀ (s k : List Nat), (∀ x ∈ s, x < 256) → (∀ x ∈ k, x < 256) →
      ∀ x ∈ addRoundKey s k, x < 256 := by
  intro s
  induction s with
  | nil => intro k _ _ x hx; simp [addRoundKey, xorBytes] at hx
  | cons a s ih =>
    intro k hs hk x hx
    cases k with
    | nil => simp [addRoundKey, xorBytes] at hx
    | cons b k =>
      simp only [addRoundKey, xorBytes, List.zipWith_cons_cons, List.mem_cons] at hx
      rcases hx with rfl | hx
      · exact byteXor_lt (hs a (by simp)) (hk b (by simp))
      · exact ih k (fun y hy => hs y (by simp [hy])) (fun y hy => hk y (by simp [hy])) x hx

/-- XORing the same round key twice restores the State. -/
theorem addRoundKey_addRoundKey :
    ∀ (s k : List Nat), s.length ≤ k.length →
      addRoundKey (addRoundKey s k) k = s := by
  intro s
  induction s with
  | nil => intro k _; rfl
  | cons a s ih =>
    intro k h
    cases k with
    | nil => simp at h
    | cons b k =>
      simp only [addRoundKey, xorBytes, List.zipWith_cons_cons, List.cons.injEq] at ih ⊢
      exact ⟨Nat.xor_cancel_right b a, ih k (by simpa using h)⟩

/-! ## Block cipher core -/

/-- Modelled from the spec: the engine error taxonomy. -/
inductive AesError where
  | invalidKeySize
  | invalidBlockSize
  | invalidPadding
  | authenticationFailed
  | invalidNonceOrIV
deriving DecidableEq

/-- A well-formed State: 16 bytes. -/
def ValidState (s : List Nat) : Prop := s.length = 16 ∧ ∀ x ∈ s, x < 256

/-- Modelled from the spec: the middle and final encryption rounds, driven
by the remaining round keys (the last key triggers the final round that
skips MixColumns). -/
def encRounds : List (List Nat) → List Nat → List Nat
  | [], s => s
  | [k], s => addRoundKey (shiftRows (subBytes s)) k
  | k :: k2 :: rest, s =>
    encRounds (k2 :: rest) (addRoundKey (mixColumns (shiftRows (subBytes s))) k)

/-- Modelled from the spec: single-block AES encryption; the initial state
is the plaintext XORed with round key 0, then the rounds run. -/
def encryptBlock (block : List Nat) (ks : List (List Nat)) : List Nat :=
  match ks with
  | [] => block
  | k0 :: rest => encRounds rest (addRoundKey block k0)

/-- Modelled from the spec: decryption walks the mirror sequence with
inverse primitives in reverse round order. -/
def decRounds : List (List Nat) → List Nat → List Nat
  | [], s => s
  | [k], s => invSubBytes (invShiftRows (addRoundKey s k))
  | k :: k2 :: rest, s =>
    invSubBytes (invShiftRows (invMixColumns (addRoundKey (decRounds (k2 :: rest) s) k)))

/-- Modelled from the spec: single-block AES decryption. -/
def decryptBlock (block : List Nat) (ks : List (List Nat)) : List Nat :=
  match ks with
  | [] => block
  | k0 :: rest => addRoundKey (decRounds rest block) k0

/-- AddRoundKey preserves State validity. -/
theorem validState_addRoundKey (s k : List Nat) (hs : ValidState s)
    (hk : ValidState k) : ValidState (addRoundKey s k) := by
  refine ⟨?_, addRoundKey_lt s k hs.2 hk.2⟩
  rw [addRoundKey_length, hs.1, hk.1]
  norm_num

/-- SubBytes preserves State validity. -/
theorem validState_subBytes (s : List Nat) (hs : ValidState s) :
    ValidState (subBytes s) :=
  ⟨by rw [subBytes_length, hs.1], subBytes_lt s⟩

/-- ShiftRows preserves State validity. -/
theorem validState_shiftRows (s : List Nat) (hs : ValidState s) :
    ValidState (shiftRows s) :=
  ⟨shiftRows_length s, shiftRows_lt s hs.2⟩

/-- MixColumns preserves State validity. -/
theorem validState_mixColumns (s : List Nat) (hs : ValidState s) :
    ValidState (mixColumns s) :=
  ⟨mixColumns_length s, mixColumns_lt s hs.2⟩

/-- The inverse round walk undoes the forward round walk for any nonempty
run of valid round keys. -/
theorem decRounds_encRounds :
    ∀ (ks : List (List Nat)) (s : List Nat), ks ≠ [] →
      (∀ k ∈ ks, ValidState k) → ValidState s →
      decRounds ks (encRounds ks s) = s := by
  intro ks
  induction ks with
  | nil => intro s h; exact absurd rfl h
  | cons k rest ih =>
    intro s _ hval hs
    have hk : ValidState k := hval k (by simp)
    have hsub := validState_subBytes s hs
    have hshift := validState_shiftRows _ hsub
    cases rest with
    | nil =>
      simp only [encRounds, decRounds]
      rw [addRoundKey_addRoundKey _ k (by rw [hshift.1, hk.1]),
        invShiftRows_shiftRows _ hsub.1, invSubBytes_subBytes s hs.2]
    | cons k2 rest2 =>
      have hmix := validState_mixColumns _ hshift
      have hmid := validState_addRoundKey _ k hmix hk
      simp only [encRounds, decRounds]
      rw [ih _ (by simp) (fun x hx => hval x (by simp [hx])) hmid,
        addRoundKey_addRoundKey _ k (by rw [hmix.1, hk.1]),
        invMixColumns_mixColumns _ hshift.1 hshift.2,
        invShiftRows_shiftRows _ hsub.1, invSubBytes_subBytes s hs.2]

/-- Single-block decryption undoes single-block encryption for any
schedule of valid round keys and any 16-byte block. -/
theorem decryptBlock_encryptBlock (block : List Nat) (ks : List (List Nat))
    (hks : ∀ k ∈ ks, ValidState k) (hb : ValidState block) :
    decryptBlock (encryptBlock block ks) ks = block := by
  cases ks with
  | nil => rfl
  | cons k0 rest =>
    have hk0 : ValidState k0 := hks k0 (by simp)
    have h0 := validState_addRoundKey block k0 hb hk0
    cases rest with
    | nil =>
      simp only [encryptBlock, decryptBlock, encRounds, decRounds]
      exact addRoundKey_addRoundKey block k0 (by rw [hb.1, hk0.1])
    | cons k1 rest1 =>
      simp only [encryptBlock, decryptBlock]
      rw [decRounds_encRounds _ _ (by simp) (fun x hx => hks x (by simp [hx])) h0]
      exact addRoundKey_addRoundKey block k0 (by rw [hb.1, hk0.1])

/-! ## Key schedule expander -/

/-- xorBytes yields a list as long as the shorter operand. -/
theorem xorBytes_length (a b : List Nat) :
    (xorBytes a b).length = min a.length b.length :=
  List.length_zipWith _ a b

/-- xorBytes outputs bytes when both operands hold bytes. -/
theorem xorBytes_lt (a b : List Nat) (ha : ∀ x ∈ a, x < 256)
    (hb : ∀ x ∈ b, x < 256) : ∀ x ∈ xorBytes a b, x < 256 :=
  addRoundKey_lt a b ha hb

/-- Modelled from the spec: the round-constant sequence follows the GF(2^8)
power sequence (rcVal n is x^n in GF(2^8)). -/
def rcVal : Nat → Nat
  | 0 => 1
  | n + 1 => xtime (rcVal n)

/-- Round constants are bytes. -/
theorem rcVal_lt (n : Nat) : rcVal n < 256 := by
  cases n with
  | zero => norm_num [rcVal]
  | succ n => exact xtime_lt (rcVal n)

/-- Fuel-driven chunking worker; the fuel bounds the number of produced
chunks so the recursion is structural. -/
def chunksOfAux : Nat → Nat → List Nat → List (List Nat)
  | 0, _, _ => []
  | fuel + 1, n, l => if l = [] then [] else l.take n :: chunksOfAux fuel n (l.drop n)

/-- Splits a byte list into consecutive chunks of n bytes. -/
def chunksOf (n : Nat) (l : List Nat) : List (List Nat) :=
  if n = 0 then [] else chunksOfAux l.length n l

/-- The chunking worker on a list of length 4*m with enough fuel yields m
words of 4 bytes each, drawn from the original list. -/
theorem chunksOfAux_four :
    ∀ (m fuel : Nat) (l : List Nat), l.length = 4 * m → m ≤ fuel →
      (chunksOfAux fuel 4 l).length = m ∧
        ∀ w ∈ chunksOfAux fuel 4 l, w.length = 4 ∧ ∀ x ∈ w, x ∈ l := by
  intro m
  induction m with
  | zero =>
    intro fuel l hl _
    have : l = [] := List.length_eq_zero.mp (by omega)
    subst this
    cases fuel <;> exact ⟨rfl, by intro w hw; simp [chunksOfAux] at hw⟩
  | succ m ih =>
    intro fuel l hl hfuel
    have hne : l ≠ [] := by
      intro he
      subst he
      simp at hl
    rcases fuel with _ | fuel
    · omega
    rw [chunksOfAux, if_neg hne]
    have hdrop : (l.drop 4).length = 4 * m := by
      simp only [List.length_drop]
      omega
    obtain ⟨ihlen, ihmem⟩ := ih fuel (l.drop 4) hdrop (by omega)
    refine ⟨by simp [ihlen], ?_⟩
    intro w hw
    rcases List.mem_cons.mp hw with rfl | hw
    · refine ⟨?_, fun y hy => List.take_subset 4 l hy⟩
      simp only [List.length_take]
      omega
    · obtain ⟨hw4, hwmem⟩ := ihmem w hw
      exact ⟨hw4, fun y hy => List.drop_subset 4 l (hwmem y hy)⟩

/-- Chunking a list of length 4*m into 4-byte words yields m words of
4 bytes each, drawn from the original list. -/
theorem chunksOf_four (m : Nat) (l : List Nat) (hl : l.length = 4 * m) :
    (chunksOf 4 l).length = m ∧
      ∀ w ∈ chunksOf 4 l, w.length = 4 ∧ ∀ x ∈ w, x ∈ l := by
  unfold chunksOf
  rw [if_neg (by norm_num)]
  exact chunksOfAux_four m l.length l hl (by omega)

/-- Rotate a word left by one byte. -/
def rotWord (w : List Nat) : List Nat := w.drop 1 ++ w.take 1

/-- Apply the S-box to every byte of a word. -/
def subWord (w : List Nat) : List Nat := w.map sbox

/-- rotWord keeps the word length. -/
theorem rotWord_length (w : List Nat) : (rotWord w).length = w.length := by
  simp only [rotWord, List.length_append, List.length_drop, List.length_take]
  omega

/-- Modelled from the spec: the next word of the expanded schedule is the
word one key-length back XORed with the previous word, which at multiples
of the key word count is first rotated, substituted and round-constant
XORed, and for 256-bit keys at offset 4 is substituted. -/
def nextWord (nk : Nat) (ws : List (List Nat)) : List Nat :=
  let i := ws.length
  let prev := ws.getD (i - 1) []
  let temp :=
    if i % nk = 0 then
      xorBytes (subWord (rotWord prev)) [rcVal (i / nk - 1), 0, 0, 0]
    else if 6 < nk ∧ i % nk = 4 then subWord prev
    else prev
  xorBytes (ws.getD (i - nk) []) temp

/-- Modelled from the spec: append n freshly derived words to the
schedule. -/
def expandWordsAux : Nat → Nat → List (List Nat) → List (List Nat)
  | 0, _, ws => ws
  | n + 1, nk, ws => expandWordsAux n nk (ws ++ [nextWord nk ws])

/-- Group the expanded words into 16-byte round-key blocks, four words
per block. -/
def wordsToBlocks : List (List Nat) → List (List Nat)
  | w0 :: w1 :: w2 :: w3 :: rest => (w0 ++ w1 ++ w2 ++ w3) :: wordsToBlocks rest
  | _ => []

/-- Modelled from the spec: the key schedule expander; keys whose length
is not 16, 24 or 32 bytes are rejected with InvalidKeySize before any
expansion work, valid keys expand to Nr+1 round-key blocks. -/
def expandKeySchedule (key : List Nat) : Except AesError (List (List Nat)) :=
  if key.length = 16 ∨ key.length = 24 ∨ key.length = 32 then
    .ok (wordsToBlocks (expandWordsAux
      (4 * (key.length / 4 + 6 + 1) - key.length / 4)
      (key.length / 4) (chunksOf 4 key)))
  else
    .error .invalidKeySize

/-- The expansion loop adds exactly n words. -/
theorem expandWordsAux_length :
    ∀ (n nk : Nat) (ws : List (List Nat)),
      (expandWordsAux n nk ws).length = ws.length + n := by
  intro n
  induction n with
  | zero => intro nk ws; simp [expandWordsAux]
  | succ n ih =>
    intro nk ws
    rw [expandWordsAux, ih]
    simp
    omega

/-- Reading a word list through getD at an in-range index lands in the
list. -/
theorem getD_word_mem (ws : List (List Nat)) (j : Nat) (hj : j < ws.length) :
    ws.getD j [] ∈ ws := by
  rw [List.getD_eq_getElem ws [] hj]
  exact List.getElem_mem hj

/-- Freshly derived words have 4 bytes. -/
theorem nextWord_length (nk : Nat) (ws : List (List Nat)) (hnk : 1 ≤ nk)
    (hne : ws ≠ []) (h4 : ∀ w ∈ ws, w.length = 4) :
    (nextWord nk ws).length = 4 := by
  have hlen : 0 < ws.length := List.length_pos.mpr hne
  have hprev : (ws.getD (ws.length - 1) []).length = 4 :=
    h4 _ (getD_word_mem ws _ (by omega))
  have hback : (ws.getD (ws.length - nk) []).length = 4 :=
    h4 _ (getD_word_mem ws _ (by omega))
  unfold nextWord
  rw [xorBytes_length, hback]
  split
  · rw [xorBytes_length]
    simp only [subWord, List.length_map, rotWord_length, hprev]
    norm_num
  split
  · simp only [subWord, List.length_map, hprev]
    norm_num
  · rw [hprev]
    norm_num

/-- Every word of the expanded schedule has 4 bytes. -/
theorem expandWordsAux_len4 :
    ∀ (n nk : Nat) (ws : List (List Nat)), 1 ≤ nk → ws ≠ [] →
      (∀ w ∈ ws, w.length = 4) →
      ∀ w ∈ expandWordsAux n nk ws, w.length = 4 := by
  intro n
  induction n with
  | zero => intro nk ws _ _ h4; simpa [expandWordsAux] using h4
  | succ n ih =>
    intro nk ws hnk hne h4
    rw [expandWordsAux]
    refine ih nk _ hnk (by simp) ?_
    intro w hw
    rcases List.mem_append.mp hw with hw | hw
    · exact h4 w hw
    · rcases List.mem_singleton.mp hw with rfl
      exact nextWord_length nk ws hnk hne h4

/-- Bytes of a word read through getD are bytes of the schedule. -/
theorem getD_word_bytes (ws : List (List Nat))
    (hb : ∀ w ∈ ws, ∀ x ∈ w, x < 256) (j : Nat) :
    ∀ x ∈ ws.getD j [], x < 256 := by
  by_cases hj : j < ws.length
  · exact hb _ (getD_word_mem ws j hj)
  · rw [List.getD_eq_default ws [] (Nat.le_of_not_lt hj)]
    intro x hx
    simp at hx

/-- Freshly derived words hold bytes. -/
theorem nextWord_lt (nk : Nat) (ws : List (List Nat))
    (hb : ∀ w ∈ ws, ∀ x ∈ w, x < 256) : ∀ x ∈ nextWord nk ws, x < 256 := by
  unfold nextWord
  apply xorBytes_lt
  · exact getD_word_bytes ws hb _
  split
  · apply xorBytes_lt
    · intro x hx
      simp only [subWord, List.mem_map] at hx
      obtain ⟨y, _, rfl⟩ := hx
      exact sbox_lt y
    · intro x hx
      rcases List.mem_cons.mp hx with rfl | hx
      · exact rcVal_lt _
      · simp at hx
        rcases hx with rfl | rfl | rfl <;> norm_num
  split
  · intro x hx
    simp only [subWord, List.mem_map] at hx
    obtain ⟨y, _, rfl⟩ := hx
    exact sbox_lt y
  · exact getD_word_bytes ws hb _

/-- Every word of the expanded schedule holds bytes. -/
theorem expandWordsAux_lt :
    ∀ (n nk : Nat) (ws : List (List Nat)),
      (∀ w ∈ ws, ∀ x ∈ w, x < 256) →
      ∀ w ∈ expandWordsAux n nk ws, ∀ x ∈ w, x < 256 := by
  intro n
  induction n with
  | zero => intro nk ws hb; simpa [expandWordsAux] using hb
  | succ n ih =>
    intro nk ws hb
    rw [expandWordsAux]
    refine ih nk _ ?_
    intro w hw
    rcases List.mem_append.mp hw with hw | hw
    · exact hb w hw
    · rcases List.mem_singleton.mp hw with rfl
      exact nextWord_lt nk ws hb

/-- Grouping 4*m words of 4 bytes yields m blocks of 16 bytes. -/
theorem wordsToBlocks_shape :
    ∀ (m : Nat) (ws : List (List Nat)), ws.length = 4 * m →
      (∀ w ∈ ws, w.length = 4) →
      (wordsToBlocks ws).length = m ∧ ∀ b ∈ wordsToBlocks ws, b.length = 16 := by
  intro m
  induction m with
  | zero =>
    intro ws hl _
    have : ws = [] := List.length_eq_zero.mp (by omega)
    subst this
    exact ⟨rfl, by intro b hb; simp [wordsToBlocks] at hb⟩
  | succ m ih =>
    intro ws hl h4
    rcases ws with _ | ⟨w0, ws⟩
    · simp at hl
    rcases ws with _ | ⟨w1, ws⟩
    · simp at hl; omega
    rcases ws with _ | ⟨w2, ws⟩
    · simp at hl; omega
    rcases ws with _ | ⟨w3, ws⟩
    · simp at hl; omega
    have hlen : ws.length = 4 * m := by simp at hl; omega
    obtain ⟨ihlen, ihblocks⟩ := ih ws hlen (fun w hw => h4 w (by simp [hw]))
    constructor
    · simp [wordsToBlocks, ihlen]
    · intro b hb
      rcases List.mem_cons.mp hb with rfl | hb
      · have e0 : w0.length = 4 := h4 w0 (by simp)
        have e1 : w1.length = 4 := h4 w1 (by simp)
        have e2 : w2.length = 4 := h4 w2 (by simp)
        have e3 : w3.length = 4 := h4 w3 (by simp)
        simp [List.length_append, e0, e1, e2, e3]
      · exact ihblocks b hb

/-- Blocks built from byte words hold bytes. -/
theorem wordsToBlocks_lt :
    ∀ (ws : List (List Nat)), (∀ w ∈ ws, ∀ x ∈ w, x < 256) →
      ∀ b ∈ wordsToBlocks ws, ∀ x ∈ b, x < 256
  | [], _ => by intro b hb; simp [wordsToBlocks] at hb
  | [w0], _ => by intro b hb; simp [wordsToBlocks] at hb
  | [w0, w1], _ => by intro b hb; simp [wordsToBlocks] at hb
  | [w0, w1, w2], _ => by intro b hb; simp [wordsToBlocks] at hb
  | w0 :: w1 :: w2 :: w3 :: rest, hb => by
    intro b hmem
    rcases List.mem_cons.mp hmem with rfl | hmem
    · intro x hx
      rcases List.mem_append.mp hx with hx | hx
      rotate_left
      · exact hb w3 (by simp) x hx
      rcases List.mem_append.mp hx with hx | hx
      rotate_left
      · exact hb w2 (by simp) x hx
      rcases List.mem_append.mp hx with hx | hx
      · exact hb w0 (by simp) x hx
      · exact hb w1 (by simp) x hx
    · exact wordsToBlocks_lt rest (fun w hw => hb w (by simp [hw])) b hmem

/-- Valid keys expand to a schedule of Nr+1 = keyLength/4 + 7 blocks of
16 bytes each. -/
theorem expandKeySchedule_blocks (key : List Nat) (ks : List (List Nat))
    (he : expandKeySchedule key = .ok ks) :
    ks.length = key.length / 4 + 7 ∧ ∀ b ∈ ks, b.length = 16 := by
  unfold expandKeySchedule at he
  split at he
  case isFalse => simp at he
  case isTrue hlen =>
    simp only [Except.ok.injEq] at he
    subst he
    have hdiv : key.length = 4 * (key.length / 4) := by
      rcases hlen with h | h | h <;> rw [h] <;> norm_num
    have hnk1 : 1 ≤ key.length / 4 := by
      rcases hlen with h | h | h <;> rw [h] <;> norm_num
    obtain ⟨hw0len, hw0mem⟩ := chunksOf_four (key.length / 4) key hdiv
    have hw0ne : chunksOf 4 key ≠ [] := by
      apply List.ne_nil_of_length_pos
      omega
    have hwords : (expandWordsAux (4 * (key.length / 4 + 6 + 1) - key.length / 4)
        (key.length / 4) (chunksOf 4 key)).length = 4 * (key.length / 4 + 7) := by
      rw [expandWordsAux_length, hw0len]
      omega
    have hlen4 := expandWordsAux_len4
      (4 * (key.length / 4 + 6 + 1) - key.length / 4) (key.length / 4)
      (chunksOf 4 key) hnk1 hw0ne (fun w hw => (hw0mem w hw).1)
    exact wordsToBlocks_shape (key.length / 4 + 7) _ hwords hlen4

/-- Schedules expanded from byte keys consist of valid 16-byte States. -/
theorem expandKeySchedule_valid (key : List Nat) (ks : List (List Nat))
    (he : expandKeySchedule key = .ok ks) (hkey : ∀ x ∈ key, x < 256) :
    ∀ b ∈ ks, ValidState b := by
  have hblocks := expandKeySchedule_blocks key ks he
  unfold expandKeySchedule at he
  split at he
  case isFalse => simp at he
  case isTrue hlen =>
    simp only [Except.ok.injEq] at he
    subst he
    have hdiv : key.length = 4 * (key.length / 4) := by
      rcases hlen with h | h | h <;> rw [h] <;> norm_num
    obtain ⟨hw0len, hw0mem⟩ := chunksOf_four (key.length / 4) key hdiv
    have hbytes := wordsToBlocks_lt _ (expandWordsAux_lt
      (4 * (key.length / 4 + 6 + 1) - key.length / 4) (key.length / 4)
      (chunksOf 4 key)
      (fun w hw x hx => hkey x ((hw0mem w hw).2 x hx)))
    intro b hb
    exact ⟨hblocks.2 b hb, hbytes b hb⟩

/-- Keys of invalid length are rejected with InvalidKeySize. -/
theorem expandKeySchedule_invalid (key : List Nat)
    (h : ¬(key.length = 16 ∨ key.length = 24 ∨ key.length = 32)) :
    expandKeySchedule key = .error .invalidKeySize := by
  unfold expandKeySchedule
  rw [if_neg h]

/-! ## Padding and mode-of-operation wrappers -/

/-- Modelled from the spec: PKCS#7-style padding to a 16-byte multiple. -/
def pkcs7pad (l : List Nat) : List Nat :=
  l ++ List.replicate (16 - l.length % 16) (16 - l.length % 16)

/-- Modelled from the spec: ECB applies the block core independently to
each 16-byte block of the padded buffer. -/
def ecbEncryptBlocks (ks : List (List Nat)) (pt : List Nat) : List (List Nat) :=
  (chunksOf 16 (pkcs7pad pt)).map (fun b => encryptBlock b ks)

/-- Modelled from the spec: ECB encryption of a whole padded message. -/
def ecbEncrypt (key pt : List Nat) : Except AesError (List Nat) :=
  match expandKeySchedule key with
  | .error e => .error e
  | .ok ks => .ok (ecbEncryptBlocks ks pt).flatten

/-- Modelled from the spec: CBC chaining; every plaintext block is XORed
with the previous ciphertext block (the IV for block 0) before the block
core runs. -/
def cbcChain (ks : List (List Nat)) (prev : List Nat) :
    List (List Nat) → List (List Nat)
  | [] => []
  | b :: rest =>
    encryptBlock (xorBytes b prev) ks :: cbcChain ks (encryptBlock (xorBytes b prev) ks) rest

/-- Modelled from the spec: CBC encryption; a wrong-length IV is rejected
with InvalidNonceOrIV before any block is processed. -/
def cbcEncrypt (key iv pt : List Nat) : Except AesError (List Nat) :=
  match expandKeySchedule key with
  | .error e => .error e
  | .ok ks =>
    if iv.length = 16 then
      .ok (cbcChain ks iv (chunksOf 16 (pkcs7pad pt))).flatten
    else
      .error .invalidNonceOrIV

/-! ## GCM mode -/

/-- Big-endian byte serialisation of a value into n bytes. -/
def natToBytesBE (n v : Nat) : List Nat :=
  (List.range n).map (fun i => v / 256 ^ (n - 1 - i) % 256)

/-- Big-endian interpretation of a byte list as a number. -/
def bytesToNatBE (l : List Nat) : Nat := l.foldl (fun a b => a * 256 + b) 0

/-- Modelled from the spec: doubling in GF(2^128) by shift-and-reduce
under the GHASH reduction polynomial x^128+x^7+x^2+x+1. -/
def xtime128 (a : Nat) : Nat :=
  if a < 2 ^ 127 then (2 * a) % 2 ^ 128 else ((2 * a) ^^^ 0x87) % 2 ^ 128

/-- Modelled from the spec: multiplication in GF(2^128) for GHASH. -/
def gmul128 (a b : Nat) : Nat := clmulAux xtime128 128 a b

/-- Modelled from the spec: GHASH over the ciphertext (no associated
data): the zero-padded 16-byte blocks followed by the length block are
absorbed by XOR-then-multiply with the hash key. -/
def ghash (h : Nat) (c : List Nat) : Nat :=
  (((chunksOf 16 c).map fun b => bytesToNatBE (b ++ List.replicate (16 - b.length) 0)) ++
      [bytesToNatBE (natToBytesBE 8 0 ++ natToBytesBE 8 (8 * c.length))]).foldl
    (fun y b => gmul128 (y ^^^ b) h) 0

/-- Counter block i for a 12-byte nonce: nonce followed by a 4-byte
big-endian counter. -/
def ctrBlock (nonce : List Nat) (i : Nat) : List Nat := nonce ++ natToBytesBE 4 i

/-- Keystream of m blocks: the encrypted counter blocks starting at
counter 2. -/
def gcmKeystream (ks : List (List Nat)) (nonce : List Nat) (m : Nat) : List Nat :=
  ((List.range m).map fun i => encryptBlock (ctrBlock nonce (i + 2)) ks).flatten

/-- The GHASH key: the encryption of the all-zero block. -/
def gcmHashKey (ks : List (List Nat)) : Nat :=
  bytesToNatBE (encryptBlock (List.replicate 16 0) ks)

/-- Modelled from the spec: the authentication tag is the GHASH of the
ciphertext XORed with the encrypted initial counter block. -/
def gcmTag (ks : List (List Nat)) (nonce c : List Nat) : List Nat :=
  natToBytesBE 16 (ghash (gcmHashKey ks) c ^^^
    bytesToNatBE (encryptBlock (ctrBlock nonce 1) ks))

/-- Counter-mode XOR of data with the keystream. -/
def gcmCtrXor (ks : List (List Nat)) (nonce data : List Nat) : List Nat :=
  xorBytes data (gcmKeystream ks nonce ((data.length + 15) / 16))

/-- Modelled from the spec: GCM encryption produces ciphertext and tag;
a nonce that is not 12 bytes is rejected with InvalidNonceOrIV. -/
def gcmEncrypt (key nonce pt : List Nat) :
    Except AesError (List Nat × List Nat) :=
  match expandKeySchedule key with
  | .error e => .error e
  | .ok ks =>
    if nonce.length = 12 then
      .ok (gcmCtrXor ks nonce pt, gcmTag ks nonce (gcmCtrXor ks nonce pt))
    else
      .error .invalidNonceOrIV

/-- Modelled from the spec: GCM decryption recomputes the tag over the
ciphertext and rejects with AuthenticationFailed before any plaintext is
produced when the supplied tag differs. -/
def gcmDecrypt (key nonce ct tag : List Nat) : Except AesError (List Nat) :=
  match expandKeySchedule key with
  | .error e => .error e
  | .ok ks =>
    if nonce.length = 12 then
      if tag = gcmTag ks nonce ct then
        .ok (gcmCtrXor ks nonce ct)
      else
        .error .authenticationFailed
    else
      .error .invalidNonceOrIV

/-- Flip bit b of byte j of a byte list. -/
def flipBit (l : List Nat) (j b : Nat) : List Nat :=
  l.set j (l.getD j 0 ^^^ 2 ^ b)

/-! ## Trace recorder and visualization -/

/-- Modelled from the spec: a trace step records the round index, the
operation name, the resulting State snapshot, a textual description and a
display color tag. -/
structure TraceStep where
  round : Nat
  operation : String
  state : List Nat
  description : String
  color : String
deriving DecidableEq

/-- Placeholder step used as a default when reading the last step. -/
def emptyStep : TraceStep := ⟨0, "", [], "", ""⟩

/-- Modelled from the spec: the traced middle and final rounds; every full
round emits SubBytes, ShiftRows, MixColumns and AddRoundKey steps and the
final round omits MixColumns. -/
def traceRounds (r : Nat) : List (List Nat) → List Nat → List TraceStep
  | [], _ => []
  | [k], s =>
    [⟨r, "SubBytes", subBytes s, "Final round byte substitution", "blue"⟩,
     ⟨r, "ShiftRows", shiftRows (subBytes s), "Final round row shift", "purple"⟩,
     ⟨r, "AddRoundKey", addRoundKey (shiftRows (subBytes s)) k,
       "Final round key addition", "red"⟩]
  | k :: k2 :: rest, s =>
    ⟨r, "SubBytes", subBytes s, "Byte substitution", "blue"⟩ ::
    ⟨r, "ShiftRows", shiftRows (subBytes s), "Row shift", "purple"⟩ ::
    ⟨r, "MixColumns", mixColumns (shiftRows (subBytes s)), "Column mixing", "green"⟩ ::
    ⟨r, "AddRoundKey", addRoundKey (mixColumns (shiftRows (subBytes s))) k,
      "Round key addition", "red"⟩ ::
    traceRounds (r + 1) (k2 :: rest)
      (addRoundKey (mixColumns (shiftRows (subBytes s))) k)

/-- Modelled from the spec: the traced single-block encryption; the
initial AddRoundKey emits a step, then the rounds run. -/
def traceEncryptBlock (block : List Nat) (ks : List (List Nat)) : List TraceStep :=
  match ks with
  | [] => []
  | k0 :: rest =>
    ⟨0, "AddRoundKey", addRoundKey block k0, "Initial key addition", "gray"⟩ ::
      traceRounds 1 rest (addRoundKey block k0)

/-- Modelled from the spec: visualize always traces exactly one block, the
first 16 bytes of the plaintext, padded if shorter. -/
def visualize (plaintext key : List Nat) : Except AesError (List TraceStep) :=
  match expandKeySchedule key with
  | .error e => .error e
  | .ok ks =>
    .ok (traceEncryptBlock
      (if 16 ≤ plaintext.length then plaintext.take 16 else pkcs7pad plaintext) ks)

/-- A nonempty run of round keys emits 4 steps per full round plus 3 for
the final round. -/
theorem traceRounds_length :
    ∀ (ks : List (List Nat)) (s : List Nat) (r : Nat), ks ≠ [] →
      (traceRounds r ks s).length = 4 * ks.length - 1 := by
  intro ks
  induction ks with
  | nil => intro s r h; exact absurd rfl h
  | cons k rest ih =>
    intro s r _
    cases rest with
    | nil => rfl
    | cons k2 rest2 =>
      simp only [traceRounds, List.length_cons, ih _ _ (by simp)]
      omega

/-- The state snapshot of the last traced step is the state computed by
the round walk. -/
theorem traceRounds_lastState :
    ∀ (ks : List (List Nat)) (s : List Nat) (r : Nat) (d : TraceStep), ks ≠ [] →
      ((traceRounds r ks s).getLastD d).state = encRounds ks s := by
  intro ks
  induction ks with
  | nil => intro s r d h; exact absurd rfl h
  | cons k rest ih =>
    intro s r d _
    cases rest with
    | nil => rfl
    | cons k2 rest2 =>
      show ((traceRounds r (k :: k2 :: rest2) s).getLastD d).state =
        encRounds (k :: k2 :: rest2) s
      rw [traceRounds, encRounds, List.getLastD_cons, List.getLastD_cons,
        List.getLastD_cons, List.getLastD_cons]
      exact ih _ _ _ (by simp)

/-! ## Base64, from the frontend generateKey helper -/

/-- The Base64 alphabet, index to character code. -/
def b64chr (n : Nat) : Nat :=
  if n < 26 then 65 + n
  else if n < 52 then 71 + n
  else if n < 62 then n - 4
  else if n = 62 then 43
  else 47

/-- The Base64 alphabet, character code to index. -/
def b64val (c : Nat) : Nat :=
  if 65 ≤ c ∧ c ≤ 90 then c - 65
  else if 97 ≤ c ∧ c ≤ 122 then c - 71
  else if 48 ≤ c ∧ c ≤ 57 then c + 4
  else if c = 43 then 62
  else if c = 47 then 63
  else 0

/-- Decoding a Base64 character undoes encoding. -/
theorem b64val_b64chr : ∀ n < 64, b64val (b64chr n) = n := by decide

/-- No Base64 alphabet character is the padding character. -/
theorem b64chr_ne_pad : ∀ n < 64, b64chr n ≠ 61 := by decide

/-- Base64 encoding of a byte list (btoa on a binary string), three bytes
to four characters with padding. -/
def b64encode : List Nat → List Nat
  | [] => []
  | [b0] => [b64chr (b0 / 4), b64chr (b0 % 4 * 16), 61, 61]
  | [b0, b1] =>
    [b64chr (b0 / 4), b64chr (b0 % 4 * 16 + b1 / 16), b64chr (b1 % 16 * 4), 61]
  | b0 :: b1 :: b2 :: rest =>
    b64chr (b0 / 4) :: b64chr (b0 % 4 * 16 + b1 / 16) ::
    b64chr (b1 % 16 * 4 + b2 / 64) :: b64chr (b2 % 64) :: b64encode rest

/-- Base64 decoding of a character-code list, four characters to three
bytes, honouring padding. -/
def b64decode : List Nat → List Nat
  | c0 :: c1 :: c2 :: c3 :: rest =>
    if c2 = 61 then [b64val c0 * 4 + b64val c1 / 16]
    else if c3 = 61 then
      [b64val c0 * 4 + b64val c1 / 16, b64val c1 % 16 * 16 + b64val c2 / 4]
    else
      (b64val c0 * 4 + b64val c1 / 16) ::
      (b64val c1 % 16 * 16 + b64val c2 / 4) ::
      (b64val c2 % 4 * 64 + b64val c3) :: b64decode rest
  | _ => []

/-- Base64 decoding undoes Base64 encoding on byte lists. -/
theorem b64decode_b64encode :
    ∀ (l : List Nat), (∀ x ∈ l, x < 256) → b64decode (b64encode l) = l
  | [], _ => rfl
  | [b0], h => by
    have hb0 : b0 < 256 := h b0 (by simp)
    simp only [b64encode, b64decode, if_true]
    rw [b64val_b64chr _ (by omega), b64val_b64chr _ (by omega)]
    simp only [List.cons.injEq, and_true]
    omega
  | [b0, b1], h => by
    have hb0 : b0 < 256 := h b0 (by simp)
    have hb1 : b1 < 256 := h b1 (by simp)
    simp only [b64encode, b64decode]
    rw [if_neg (b64chr_ne_pad _ (by omega))]
    simp only [if_true]
    rw [b64val_b64chr _ (by omega), b64val_b64chr _ (by omega),
      b64val_b64chr _ (by omega)]
    simp only [List.cons.injEq, and_true]
    omega
  | b0 :: b1 :: b2 :: rest, h => by
    have hb0 : b0 < 256 := h b0 (by simp)
    have hb1 : b1 < 256 := h b1 (by simp)
    have hb2 : b2 < 256 := h b2 (by simp)
    have hrec := b64decode_b64encode rest fun x hx => h x (by simp [hx])
    simp only [b64encode, b64decode]
    rw [if_neg (b64chr_ne_pad _ (by omega)), if_neg (b64chr_ne_pad _ (by omega)),
      b64val_b64chr _ (by omega), b64val_b64chr _ (by omega),
      b64val_b64chr _ (by omega), b64val_b64chr _ (by omega)]
    simp only [List.cons.injEq]
    exact ⟨by omega, by omega, by omega, hrec⟩

/-- Embedded from src/frontend/src/App.js generateKey: the requested key
size in bits is divided by 8 and that many bytes are drawn from the
browser's random source (a Uint8Array holds bytes, modelled by reducing
the external values mod 256). -/
def genKeyBytes (keySize : Nat) (rand : Nat → Nat) : List Nat :=
  (List.range (keySize / 8)).map fun i => rand i % 256

/-- Embedded from src/frontend/src/App.js generateKey: the key field is
set to the Base64 encoding of the freshly generated bytes. -/
def generateKey (keySize : Nat) (rand : Nat → Nat) : List Nat :=
  b64encode (genKeyBytes keySize rand)

/-! ## AESVisualization component state, from the frontend -/

/-- Embedded from src/frontend/src/AESVisualization.js: the interactions
that change the current step index. -/
inductive VizEvent where
  | reset
  | prevStep
  | nextStep
  | autoAdvance
  | jump (i : Nat)

/-- Embedded from src/frontend/src/AESVisualization.js: the new value of
currentStep after each interaction (reset on open sets 0, Previous takes
max 0 (cur-1), Next and auto-play take min (len-1) (cur+1), a step-list
button jumps to its index). -/
def vizStep (len cur : Nat) : VizEvent → Nat
  | .reset => 0
  | .prevStep => cur - 1
  | .nextStep => min (len - 1) (cur + 1)
  | .autoAdvance => min (cur + 1) (len - 1)
  | .jump i => i

/-- Run a sequence of interactions from the initial currentStep of 0. -/
def vizRun (len : Nat) (evs : List VizEvent) : Nat :=
  evs.foldl (vizStep len) 0

/-- Jump targets come from the rendered step list, so their index is in
range; the other interactions carry no data. -/
def VizEventValid (len : Nat) : VizEvent → Prop
  | .jump i => i < len
  | _ => True

/-- A single interaction keeps currentStep in range. -/
theorem vizStep_lt (len cur : Nat) (e : VizEvent) (hlen : 0 < len)
    (hcur : cur < len) (he : VizEventValid len e) : vizStep len cur e < len := by
  cases e <;> simp only [vizStep, VizEventValid] at he ⊢ <;> omega

/-- Folding interactions from any in-range step stays in range. -/
theorem vizFold_lt (len : Nat) :
    ∀ (evs : List VizEvent) (cur : Nat), 0 < len → cur < len →
      (∀ e ∈ evs, VizEventValid len e) →
      evs.foldl (vizStep len) cur < len := by
  intro evs
  induction evs with
  | nil => intro cur _ hcur _; exact hcur
  | cons e evs ih =>
    intro cur hlen hcur hv
    exact ih _ hlen (vizStep_lt len cur e hlen hcur (hv e (by simp)))
      (fun x hx => hv x (by simp [hx]))

/-! ## handleEncrypt state transitions, from the frontend -/

/-- Embedded from src/frontend/src/App.js: the pieces of component state
that handleEncrypt touches. -/
structure AppState where
  ciphertext : String
  iv : String
  decryptedText : String
  errorMsg : String
  encryptionTimeMs : Option String
  decryptionTimeMs : Option String
  loading : Bool
deriving DecidableEq

/-- The outcome of the POST to the encrypt endpoint. -/
inductive EncOutcome where
  | success (ct : String) (ivOut : Option String) (timeMs : String)
  | failure (msg : String)

/-- Embedded from src/frontend/src/App.js handleEncrypt: an empty
plaintext or key only sets the error; otherwise the error, ciphertext, iv
and decryption-time fields are cleared before the request, the response
fills ciphertext, iv and the encryption time, any failure sets only the
error, and loading is reset at the end. -/
def handleEncrypt (st : AppState) (plaintext key : String)
    (outcome : EncOutcome) : AppState :=
  if plaintext = "" ∨ key = "" then
    { st with errorMsg := "Please enter plaintext and key" }
  else
    let st1 := { st with loading := true, errorMsg := "", ciphertext := "",
                         iv := "", decryptionTimeMs := none }
    let st2 :=
      match outcome with
      | .success ct ivOut t =>
        { st1 with ciphertext := ct, iv := ivOut.getD "",
                   encryptionTimeMs := some t }
      | .failure msg => { st1 with errorMsg := msg }
    { st2 with loading := false }

/-! ## Test fixtures -/

/-- The 16 bytes of the ASCII plaintext YELLOW SUBMARINE. -/
def ysBytes : List Nat :=
  [89, 69, 76, 76, 79, 87, 32, 83, 85, 66, 77, 65, 82, 73, 78, 69]

/-- A fixed 16-byte test key. -/
def testKey16 : List Nat := List.range 16

/-- A fixed 12-byte test nonce. -/
def testNonce12 : List Nat := List.range 12

/-- The schedule of a key, empty on rejection. -/
def schedOf (key : List Nat) : List (List Nat) :=
  match expandKeySchedule key with
  | .ok ks => ks
  | .error _ => []

/-- The trace of a visualization call, empty on rejection. -/
def visualizeSteps (pt key : List Nat) : List TraceStep :=
  match visualize pt key with
  | .ok steps => steps
  | .error _ => []

instance : DecidableEq (Except AesError (List Nat))
  | .ok x, .ok y =>
    if h : x = y then .isTrue (by rw [h]) else .isFalse (fun he => h (by cases he; rfl))
  | .error e, .error f =>
    if h : e = f then .isTrue (by rw [h]) else .isFalse (fun he => h (by cases he; rfl))
  | .ok _, .error _ => .isFalse (fun he => by cases he)
  | .error _, .ok _ => .isFalse (fun he => by cases he)

/-! ## Claim theorems -/

/-- C1: for every valid key (the schedule expander accepts exactly the
16-, 24- and 32-byte keys) and every 16-byte block, decrypting the
encryption of the block under the derived schedule returns the block;
both functions are pure Lean functions of their inputs. -/
theorem claim1_roundtrip (key block : List Nat) (ks : List (List Nat))
    (hk : expandKeySchedule key = .ok ks) (hkey : ∀ x ∈ key, x < 256)
    (hlen : block.length = 16) (hbytes : ∀ x ∈ block, x < 256) :
    decryptBlock (encryptBlock block ks) ks = block :=
  decryptBlock_encryptBlock block ks (expandKeySchedule_valid key ks hk hkey)
    ⟨hlen, hbytes⟩

/-- C1 witness: the round trip at the fixed test key and the YELLOW
SUBMARINE block. -/
theorem claim1_roundtrip_witness :
    decryptBlock (encryptBlock ysBytes (schedOf testKey16)) (schedOf testKey16) =
      ysBytes :=
  claim1_roundtrip testKey16 ysBytes (schedOf testKey16) rfl (by decide)
    (by decide) (by decide)

/-- C2: each accepted key length deterministically selects the round
count (10, 12 or 14), and the expanded schedule has exactly Nr+1 blocks
(11, 13 or 15) of 16 bytes each. -/
theorem claim2_schedule (key : List Nat) (ks : List (List Nat))
    (he : expandKeySchedule key = .ok ks) :
    ((key.length = 16 ∧ ks.length = 11) ∨ (key.length = 24 ∧ ks.length = 13) ∨
      (key.length = 32 ∧ ks.length = 15)) ∧ ∀ b ∈ ks, b.length = 16 := by
  obtain ⟨hlen, hblocks⟩ := expandKeySchedule_blocks key ks he
  have hval : key.length = 16 ∨ key.length = 24 ∨ key.length = 32 := by
    unfold expandKeySchedule at he
    split at he
    case isTrue h => exact h
    case isFalse h => simp at he
  refine ⟨?_, hblocks⟩
  rcases hval with h | h | h
  · exact Or.inl ⟨h, by rw [hlen, h]⟩
  · exact Or.inr (Or.inl ⟨h, by rw [hlen, h]⟩)
  · exact Or.inr (Or.inr ⟨h, by rw [hlen, h]⟩)

/-- C2 witness: the shape of the schedule of the fixed 16-byte test
key. -/
theorem claim2_schedule_witness :
    ((testKey16.length = 16 ∧ (schedOf testKey16).length = 11) ∨
      (testKey16.length = 24 ∧ (schedOf testKey16).length = 13) ∨
      (testKey16.length = 32 ∧ (schedOf testKey16).length = 15)) ∧
    ∀ b ∈ schedOf testKey16, b.length = 16 :=
  claim2_schedule testKey16 (schedOf testKey16) rfl

/-- C4: a key whose length is not 16, 24 or 32 is rejected with
InvalidKeySize by the schedule expander (no schedule is produced), and
the CBC and GCM wrappers reject a wrong-length IV or nonce with
InvalidNonceOrIV (no ciphertext is produced). -/
theorem claim4_malformed :
    (∀ key : List Nat, ¬(key.length = 16 ∨ key.length = 24 ∨ key.length = 32) →
      expandKeySchedule key = .error .invalidKeySize) ∧
    (∀ (key iv pt : List Nat) (ks : List (List Nat)),
      expandKeySchedule key = .ok ks → iv.length ≠ 16 →
      cbcEncrypt key iv pt = .error .invalidNonceOrIV) ∧
    (∀ (key nonce pt : List Nat) (ks : List (List Nat)),
      expandKeySchedule key = .ok ks → nonce.length ≠ 12 →
      gcmEncrypt key nonce pt = .error .invalidNonceOrIV) := by
  refine ⟨expandKeySchedule_invalid, ?_, ?_⟩
  · intro key iv pt ks hk hiv
    unfold cbcEncrypt
    rw [hk]
    simp [hiv]
  · intro key nonce pt ks hk hn
    unfold gcmEncrypt
    rw [hk]
    simp [hn]

/-- C4 witness: a 3-byte key, a 4-byte IV and a 4-byte nonce are all
rejected. -/
theorem claim4_malformed_witness :
    expandKeySchedule (List.replicate 3 0) = .error .invalidKeySize ∧
    cbcEncrypt testKey16 (List.replicate 4 0) ysBytes = .error .invalidNonceOrIV ∧
    gcmEncrypt testKey16 (List.replicate 4 0) ysBytes = .error .invalidNonceOrIV :=
  ⟨claim4_malformed.1 (List.replicate 3 0) (by decide),
    claim4_malformed.2.1 testKey16 (List.replicate 4 0) ysBytes
      (schedOf testKey16) rfl (by decide),
    claim4_malformed.2.2 testKey16 (List.replicate 4 0) ysBytes
      (schedOf testKey16) rfl (by decide)⟩

/-- The 16-byte blocks of the padded plaintext. -/
def ptBlocks (pt : List Nat) : List (List Nat) := chunksOf 16 (pkcs7pad pt)

/-- C6: under ECB with a fixed schedule, positions of the padded message
holding equal 16-byte plaintext blocks yield equal ciphertext blocks. -/
theorem claim6_ecb (key pt : List Nat) (ks : List (List Nat))
    (hk : expandKeySchedule key = .ok ks) (i j : Nat)
    (hi : i < (ptBlocks pt).length) (hj : j < (ptBlocks pt).length)
    (heq : (ptBlocks pt).getD i [] = (ptBlocks pt).getD j []) :
    (ecbEncryptBlocks ks pt).getD i [] = (ecbEncryptBlocks ks pt).getD j [] := by
  unfold ptBlocks at hi hj heq
  unfold ecbEncryptBlocks
  rw [List.getD_eq_getElem _ _ (by simpa using hi),
    List.getD_eq_getElem _ _ (by simpa using hj)]
  simp only [List.getElem_map]
  rw [List.getD_eq_getElem _ _ hi, List.getD_eq_getElem _ _ hj] at heq
  rw [heq]

/-- C6 witness: a message made of the same 16-byte block twice encrypts
to equal first and second ciphertext blocks. -/
theorem claim6_ecb_witness :
    (ecbEncryptBlocks (schedOf testKey16) (ysBytes ++ ysBytes)).getD 0 [] =
    (ecbEncryptBlocks (schedOf testKey16) (ysBytes ++ ysBytes)).getD 1 [] :=
  claim6_ecb testKey16 (ysBytes ++ ysBytes) (schedOf testKey16) rfl 0 1
    (by decide) (by decide) (by decide)

/-- C7: on every 16-byte State, ShiftRows sends the byte of row r and
column c to row r of column c+r mod 4 (a cyclic left shift of row r by r)
and InvShiftRows shifts right by r; the two compose to the identity both
ways and both preserve the 16-byte size. -/
theorem claim7_shiftRows (s : List Nat) (h : s.length = 16) :
    (∀ r < 4, ∀ c < 4,
      (shiftRows s).getD (4 * c + r) 0 = s.getD (4 * ((c + r) % 4) + r) 0 ∧
      (invShiftRows s).getD (4 * c + r) 0 = s.getD (4 * ((c + (4 - r)) % 4) + r) 0) ∧
    invShiftRows (shiftRows s) = s ∧ shiftRows (invShiftRows s) = s ∧
    (shiftRows s).length = 16 ∧ (invShiftRows s).length = 16 := by
  refine ⟨?_, invShiftRows_shiftRows s h, shiftRows_invShiftRows s h, rfl, rfl⟩
  intro r hr c hc
  interval_cases r <;> interval_cases c <;> exact ⟨rfl, rfl⟩

/-- C7 witness: the row-shift characterisation and inversions at a
concrete 16-byte State. -/
theorem claim7_shiftRows_witness :
    (∀ r < 4, ∀ c < 4,
      (shiftRows (List.range 16)).getD (4 * c + r) 0 =
        (List.range 16).getD (4 * ((c + r) % 4) + r) 0 ∧
      (invShiftRows (List.range 16)).getD (4 * c + r) 0 =
        (List.range 16).getD (4 * ((c + (4 - r)) % 4) + r) 0) ∧
    invShiftRows (shiftRows (List.range 16)) = List.range 16 ∧
    shiftRows (invShiftRows (List.range 16)) = List.range 16 ∧
    (shiftRows (List.range 16)).length = 16 ∧
    (invShiftRows (List.range 16)).length = 16 :=
  claim7_shiftRows (List.range 16) (by decide)

/-- Reading a list at the position just written returns the written
value. -/
theorem getD_set_self (l : List Nat) (j v : Nat) (hj : j < l.length) :
    (l.set j v).getD j 0 = v := by
  rw [List.getD_eq_getElem _ _ (by rw [List.length_set]; exact hj)]
  exact List.getElem_set_self _

/-- A bit flip at an in-range byte changes the list. -/
theorem flipBit_ne (l : List Nat) (j b : Nat) (hj : j < l.length) :
    flipBit l j b ≠ l := by
  intro hEq
  have h2 := congrArg (fun t => t.getD j 0) hEq
  simp only [flipBit] at h2
  rw [getD_set_self l j _ hj] at h2
  have h4 : (2 : Nat) ^ b = 0 := by
    have h5 := congrArg (fun z => l.getD j 0 ^^^ z) h2
    simp only at h5
    rwa [Nat.xor_cancel_left, Nat.xor_self] at h5
  have h6 := Nat.two_pow_pos b
  omega

/-- The GCM ciphertext of the test vector. -/
def gcmCt : List Nat := gcmCtrXor (schedOf testKey16) testNonce12 ysBytes

/-- The GCM tag of the test vector. -/
def gcmTagC : List Nat := gcmTag (schedOf testKey16) testNonce12 gcmCt

/-- C3: GCM decryption with a tag that differs from the recomputed tag
fails with AuthenticationFailed and produces no plaintext at all (the
Except value carries none); flipping any single bit of the tag of a
successful decryption makes it fail; and on the fixed test vector,
flipping any single bit of the ciphertext or of the tag makes decryption
fail with AuthenticationFailed. -/
theorem claim3_gcm_auth :
    (∀ (key nonce ct tag : List Nat) (ks : List (List Nat)),
      expandKeySchedule key = .ok ks → nonce.length = 12 →
      tag ≠ gcmTag ks nonce ct →
      gcmDecrypt key nonce ct tag = .error .authenticationFailed) ∧
    (∀ (key nonce ct tag pt : List Nat) (j b : Nat),
      gcmDecrypt key nonce ct tag = .ok pt → j < tag.length →
      gcmDecrypt key nonce ct (flipBit tag j b) = .error .authenticationFailed) ∧
    (∀ j < 16, ∀ b < 8,
      gcmDecrypt testKey16 testNonce12 (flipBit gcmCt j b) gcmTagC =
        .error .authenticationFailed ∧
      gcmDecrypt testKey16 testNonce12 gcmCt (flipBit gcmTagC j b) =
        .error .authenticationFailed) := by
  have part1 : ∀ (key nonce ct tag : List Nat) (ks : List (List Nat)),
      expandKeySchedule key = .ok ks → nonce.length = 12 →
      tag ≠ gcmTag ks nonce ct →
      gcmDecrypt key nonce ct tag = .error .authenticationFailed := by
    intro key nonce ct tag ks hk hn hne
    unfold gcmDecrypt
    rw [hk]
    simp [hn, hne]
  refine ⟨part1, ?_, ?_⟩
  · intro key nonce ct tag pt j b hok hj
    rcases hks : expandKeySchedule key with e | ks
    · unfold gcmDecrypt at hok
      rw [hks] at hok
      simp at hok
    · have hrest : nonce.length = 12 ∧ tag = gcmTag ks nonce ct := by
        unfold gcmDecrypt at hok
        rw [hks] at hok
        by_cases hn : nonce.length = 12
        · by_cases htag : tag = gcmTag ks nonce ct
          · exact ⟨hn, htag⟩
          · simp [hn, htag] at hok
        · simp [hn] at hok
      refine part1 key nonce ct _ ks hks hrest.1 ?_
      rw [← hrest.2]
      exact flipBit_ne tag j b hj
  · decide

/-- C3 witness: the mismatch rejection, instantiated through the
tag-bit-flip part at the test vector. -/
theorem claim3_gcm_auth_witness :
    gcmDecrypt testKey16 testNonce12 gcmCt (flipBit gcmTagC 0 0) =
      .error .authenticationFailed :=
  claim3_gcm_auth.2.1 testKey16 testNonce12 gcmCt gcmTagC ysBytes 0 0
    (by decide) (by decide)

/-- C5 counterexample: for the 16-byte plaintext YELLOW SUBMARINE and the
fixed 128-bit test key (Nr = 10), the trace does not contain
4*(Nr-1)+3 = 39 steps as claimed; it contains 40. -/
theorem claim5_counterexample :
    (visualizeSteps ysBytes testKey16).length ≠ 4 * (10 - 1) + 3 := by
  decide

/-- C5 (amended): for the plaintext YELLOW SUBMARINE and any fixed
128-bit key, the visualize operation traces exactly one block and the
trace has exactly 4*(Nr-1)+4 named steps (the four per full round, three
in the final round that skips MixColumns, and one for the initial
AddRoundKey), and the final step's State equals the independently
computed ciphertext block. -/
theorem claim5_amended (key : List Nat) (hk : key.length = 16)
    (hb : ∀ x ∈ key, x < 256) :
    (visualizeSteps ysBytes key).length = 4 * (10 - 1) + 4 ∧
    ((visualizeSteps ysBytes key).getLastD emptyStep).state =
      encryptBlock ysBytes (schedOf key) := by
  have hval : key.length = 16 ∨ key.length = 24 ∨ key.length = 32 := Or.inl hk
  have hok : expandKeySchedule key = .ok (schedOf key) := by
    unfold schedOf
    rcases hx : expandKeySchedule key with e | ks
    · unfold expandKeySchedule at hx
      rw [if_pos hval] at hx
      cases hx
    · rfl
  obtain ⟨hlen, _⟩ := expandKeySchedule_blocks key (schedOf key) hok
  rw [hk] at hlen
  have hblock :
      (if 16 ≤ ysBytes.length then ysBytes.take 16 else pkcs7pad ysBytes) =
        ysBytes := by decide
  have hsteps : visualizeSteps ysBytes key =
      traceEncryptBlock ysBytes (schedOf key) := by
    unfold visualizeSteps visualize
    rw [hok, hblock]
  rcases hsched : schedOf key with _ | ⟨k0, rest⟩
  · rw [hsched] at hlen
    simp at hlen
  have hrest : rest.length = 10 := by
    rw [hsched] at hlen
    simp at hlen
    omega
  have hrne : rest ≠ [] := by
    intro he
    rw [he] at hrest
    simp at hrest
  rw [hsteps, hsched]
  unfold traceEncryptBlock
  constructor
  · simp only [List.length_cons,
      traceRounds_length rest (addRoundKey ysBytes k0) 1 hrne, hrest]
  · rw [List.getLastD_cons, traceRounds_lastState rest _ 1 _ hrne]
    rfl

/-- C5 witness: the amended count and final state at the fixed test
key. -/
theorem claim5_amended_witness :
    (visualizeSteps ysBytes testKey16).length = 4 * (10 - 1) + 4 ∧
    ((visualizeSteps ysBytes testKey16).getLastD emptyStep).state =
      encryptBlock ysBytes (schedOf testKey16) :=
  claim5_amended testKey16 (by decide) (by decide)

/-- C8: for every selected key size in 128, 192, 256, generateKey Base64
encodes exactly keySize/8 freshly drawn random bytes (16, 24 or 32), so
decoding the key field recovers those bytes and their count always
matches the selected AES variant. -/
theorem claim8_generateKey (keySize : Nat) (rand : Nat → Nat)
    (hsize : keySize = 128 ∨ keySize = 192 ∨ keySize = 256) :
    b64decode (generateKey keySize rand) = genKeyBytes keySize rand ∧
    (genKeyBytes keySize rand).length = keySize / 8 ∧
    (keySize = 128 → keySize / 8 = 16) ∧ (keySize = 192 → keySize / 8 = 24) ∧
    (keySize = 256 → keySize / 8 = 32) := by
  refine ⟨?_, ?_, ?_, ?_, ?_⟩
  · refine b64decode_b64encode _ ?_
    intro x hx
    simp only [genKeyBytes, List.mem_map] at hx
    obtain ⟨i, _, rfl⟩ := hx
    exact Nat.mod_lt _ (by norm_num)
  · simp [genKeyBytes]
  · intro h1; rw [h1]
  · intro h1; rw [h1]
  · intro h1; rw [h1]

/-- C8 witness: the 128-bit case with the identity as random source. -/
theorem claim8_generateKey_witness :
    b64decode (generateKey 128 id) = genKeyBytes 128 id ∧
    (genKeyBytes 128 id).length = 128 / 8 ∧
    (128 = 128 → 128 / 8 = 16) ∧ ((128 : Nat) = 192 → (128 : Nat) / 8 = 24) ∧
    ((128 : Nat) = 256 → (128 : Nat) / 8 = 32) :=
  claim8_generateKey 128 id (Or.inl rfl)

/-- C9: in the AESVisualization component, for a nonempty steps array the
currentStep index stays strictly below the number of steps after every
sequence of interactions (reset on open, Previous, Next, auto-play
advance, and in-range step-list jumps), so the indexed step is always a
defined element. -/
theorem claim9_currentStep (len : Nat) (evs : List VizEvent) (hlen : 0 < len)
    (hv : ∀ e ∈ evs, VizEventValid len e) : vizRun len evs < len :=
  vizFold_lt len evs 0 hlen hlen hv

/-- C9 witness: a concrete interaction sequence over 3 steps. -/
theorem claim9_currentStep_witness :
    vizRun 3 [VizEvent.reset, VizEvent.nextStep, VizEvent.autoAdvance,
      VizEvent.jump 2, VizEvent.prevStep] < 3 :=
  claim9_currentStep 3 _ (by decide) (by
    intro e he
    simp only [List.mem_cons, List.not_mem_nil, or_false] at he
    rcases he with rfl | rfl | rfl | rfl | rfl <;> simp [VizEventValid])

/-- C10: when plaintext and key are nonempty (the path on which the
request is sent), handleEncrypt clears the ciphertext, IV and
decryption-time fields before the request, and a failing request sets
only the error, so the resulting state shows the failure message with
empty ciphertext and IV regardless of the previous state. -/
theorem claim10_handleEncrypt (st : AppState) (p k m : String)
    (hp : p ≠ "") (hk : k ≠ "") :
    handleEncrypt st p k (.failure m) =
      { st with loading := false, errorMsg := m, ciphertext := "", iv := "",
                decryptionTimeMs := none } ∧
    (handleEncrypt st p k (.failure m)).ciphertext = "" ∧
    (handleEncrypt st p k (.failure m)).iv = "" ∧
    (handleEncrypt st p k (.failure m)).errorMsg = m := by
  have hcond : ¬(p = "" ∨ k = "") := by simp [hp, hk]
  unfold handleEncrypt
  rw [if_neg hcond]
  exact ⟨rfl, rfl, rfl, rfl⟩

/-- C10 witness: a failing request on a state holding a previous result
leaves no stale ciphertext or IV next to the error. -/
theorem claim10_handleEncrypt_witness :
    handleEncrypt ⟨"oldct", "oldiv", "olddec", "", some "1.00", some "2.00", false⟩
        "hello" "key" (.failure "boom") =
      { ciphertext := "", iv := "", decryptedText := "olddec", errorMsg := "boom",
        encryptionTimeMs := some "1.00", decryptionTimeMs := none,
        loading := false } ∧
    (handleEncrypt ⟨"oldct", "oldiv", "olddec", "", some "1.00", some "2.00", false⟩
        "hello" "key" (.failure "boom")).ciphertext = "" ∧
    (handleEncrypt ⟨"oldct", "oldiv", "olddec", "", some "1.00", some "2.00", false⟩
        "hello" "key" (.failure "boom")).iv = "" ∧
    (handleEncrypt ⟨"oldct", "oldiv", "olddec", "", some "1.00", some "2.00", false⟩
        "hello" "key" (.failure "boom")).errorMsg = "boom" :=
  claim10_handleEncrypt
    ⟨"oldct", "oldiv", "olddec", "", some "1.00", some "2.00", false⟩
    "hello" "key" "boom" (by decide) (by decide)

end AesApp
